import Mathlib

/-!
Shallow embedding of the plainjob queue engine (`src/queue.ts`).

The SQLite tables `plainjob_jobs` and `plainjob_scheduled_jobs` are modelled
as lists of rows; `AUTOINCREMENT` ids are modelled by explicit counters.
`Date.now()` is passed in explicitly as an `Int` (milliseconds).  Each prepared
statement of the source becomes a pure function on `QueueState`.
-/

namespace Plainjob

/-- Job statuses from `src/jobs.ts`: Pending = 0, Processing = 1, Done = 2, Failed = 3. -/
inductive JobStatus where
  | Pending
  | Processing
  | Done
  | Failed
deriving DecidableEq

/-- Scheduled-job statuses from `src/jobs.ts`: Idle = 0, Processing = 1. -/
inductive ScheduledJobStatus where
  | Idle
  | Processing
deriving DecidableEq

/-- A row of the `plainjob_jobs` table. -/
structure JobRow where
  id : Nat
  type : String
  data : String
  status : JobStatus
  createdAt : Int
  failedAt : Option Int
  error : Option String
deriving DecidableEq

/-- A row of the `plainjob_scheduled_jobs` table. -/
structure ScheduledJobRow where
  id : Nat
  type : String
  status : ScheduledJobStatus
  cronExpression : String
  nextRun : Int
  createdAt : Int
deriving DecidableEq

/-- The database state: both tables plus the autoincrement counters. -/
structure QueueState where
  jobs : List JobRow
  scheduledJobs : List ScheduledJobRow
  nextJobId : Nat
  nextScheduledJobId : Nat
deriving DecidableEq

/-- A freshly created database (SQLite `AUTOINCREMENT` ids start at 1). -/
def emptyState : QueueState :=
  { jobs := [], scheduledJobs := [], nextJobId := 1, nextScheduledJobId := 1 }

/-- Strict ordering used by `ORDER BY created_at LIMIT 1` scans of the jobs
table: by `created_at`, ties resolved by rowid. -/
def jobLt (a b : JobRow) : Prop :=
  a.createdAt < b.createdAt ∨ (a.createdAt = b.createdAt ∧ a.id < b.id)

instance (a b : JobRow) : Decidable (jobLt a b) := by
  unfold jobLt; infer_instance

/-- Semantics of `SELECT ... ORDER BY created_at LIMIT 1` over a filtered row list: the
minimal row w.r.t. `jobLt`, the first one among exact duplicates. -/
def selectOldest : List JobRow → Option JobRow
  | [] => none
  | j :: rest =>
    match selectOldest rest with
    | none => some j
    | some k => if jobLt k j then some k else some j

/-- Statement `insertJobStmt`: `INSERT INTO plainjob_jobs (type, data, created_at)
VALUES (...)`; `status` defaults to 0 (`Pending`), `failed_at`/`error` to NULL.
Returns `lastInsertRowid` and the new state. -/
def insertJob (t data : String) (now : Int) (s : QueueState) : Nat × QueueState :=
  (s.nextJobId,
    { s with
        jobs := s.jobs ++ [⟨s.nextJobId, t, data, .Pending, now, none, none⟩],
        nextJobId := s.nextJobId + 1 })

/-- Operation `queue.add(type, data)`: serializes the payload and inserts one `Pending`
row with `createdAt = Date.now()`. -/
def add {D : Type} (serializer : D → String) (now : Int) (t : String) (d : D)
    (s : QueueState) : Nat × QueueState :=
  insertJob t (serializer d) now s

/-- Operation `queue.addMany(type, dataList)`: serializes every payload with one shared
`now`, then inserts them one by one inside a single transaction, collecting
`lastInsertRowid` of each in input order. -/
def addMany {D : Type} (serializer : D → String) (now : Int) (t : String)
    (ds : List D) (s : QueueState) : List Nat × QueueState :=
  (ds.map serializer).foldl
    (fun acc data =>
      let r := insertJob t data now acc.2
      (acc.1 ++ [r.1], r.2))
    ([], s)

/-- Row-wise effect of `getAndMarkJobAsProcessingStmt` on the row whose id was
selected: only `status` is set to `Processing`. -/
def claimFlip (pid : Nat) (j : JobRow) : JobRow :=
  if j.id = pid then { j with status := .Processing } else j

/-- Statement `getAndMarkJobAsProcessingStmt`: `UPDATE plainjob_jobs SET status = 1 WHERE
id = (SELECT id FROM plainjob_jobs WHERE status = 0 AND type = @type ORDER BY
created_at LIMIT 1)`. -/
def markOldestPending (t : String) (s : QueueState) : QueueState :=
  match selectOldest (s.jobs.filter fun j => decide (j.status = .Pending ∧ j.type = t)) with
  | none => s
  | some p => { s with jobs := s.jobs.map (claimFlip p.id) }

/-- Statement `getUpdatedJobStmt`: `SELECT * FROM plainjob_jobs WHERE status = 1 AND
type = @type ORDER BY created_at LIMIT 1`. -/
def getUpdatedJob (t : String) (s : QueueState) : Option JobRow :=
  selectOldest (s.jobs.filter fun j => decide (j.status = .Processing ∧ j.type = t))

/-- Operation `queue.getAndMarkJobAsProcessing(type)`: inside one transaction, run the
update statement, then return the row produced by `getUpdatedJobStmt`. -/
def getAndMarkJobAsProcessing (t : String) (s : QueueState) :
    Option JobRow × QueueState :=
  let s1 := markOldestPending t s
  (getUpdatedJob t s1, s1)

/-- Row-wise effect of `updateJobStatusStmt` with `status = Done`. -/
def doneFlip (id : Nat) (j : JobRow) : JobRow :=
  if j.id = id then { j with status := .Done } else j

/-- Operation `queue.markJobAsDone(id)` via `updateJobStatusStmt`: sets only `status`. -/
def markJobAsDone (id : Nat) (s : QueueState) : QueueState :=
  { s with jobs := s.jobs.map (doneFlip id) }

/-- Row-wise effect of `failJobStmt`. -/
def failFlip (now : Int) (id : Nat) (e : String) (j : JobRow) : JobRow :=
  if j.id = id then { j with status := .Failed, failedAt := some now, error := some e } else j

/-- Operation `queue.markJobAsFailed(id, error)` via `failJobStmt`: sets `status = 3`,
`failed_at = Date.now()`, `error = @error`. -/
def markJobAsFailed (now : Int) (id : Nat) (e : String) (s : QueueState) : QueueState :=
  { s with jobs := s.jobs.map (failFlip now id e) }

/-- Row-wise effect of `requeueTimedOutJobsStmt`: a `Processing` row whose
`created_at` is below `now - timeout` goes back to `Pending`. -/
def requeueFlip (now timeout : Int) (j : JobRow) : JobRow :=
  if j.status = .Processing ∧ j.createdAt < now - timeout
  then { j with status := .Pending } else j

/-- Operation `queue.requeueTimedOutJobs(timeout)` via `requeueTimedOutJobsStmt`:
`UPDATE plainjob_jobs SET status = 0 WHERE status = 1 AND created_at <
@threshold` with `threshold = Date.now() - timeout`. -/
def requeueTimedOutJobs (now timeout : Int) (s : QueueState) : QueueState :=
  { s with jobs := s.jobs.map (requeueFlip now timeout) }

/-- Operation `queue.removeDoneJobs(olderThan)` via `removeDoneJobsStmt`:
`DELETE FROM plainjob_jobs WHERE status = 2 AND created_at < @threshold`. -/
def removeDoneJobs (now olderThan : Int) (s : QueueState) : QueueState :=
  { s with jobs := s.jobs.filter fun j =>
      decide ¬(j.status = .Done ∧ j.createdAt < now - olderThan) }

/-- Operation `queue.removeFailedJobs(olderThan)` via `removeFailedJobsStmt`:
`DELETE FROM plainjob_jobs WHERE status = 3 AND failed_at < @threshold`.
A NULL `failed_at` never compares below the threshold. -/
def removeFailedJobs (now olderThan : Int) (s : QueueState) : QueueState :=
  { s with jobs := s.jobs.filter fun j =>
      !(decide (j.status = .Failed) &&
        (match j.failedAt with
         | some f => decide (f < now - olderThan)
         | none => false)) }

/-- Operation `queue.schedule(type, \x7bcron\x7d)`.  The external cron parser is abstracted by
the predicate `parseOk`; the source calls it before touching the database and
throws on failure.  On success it upserts by `type`: an existing row keeps its
id and only `cron_expression` changes, otherwise a new `Idle` row with
`next_run = 0` is inserted. -/
def schedule (parseOk : String → Bool) (now : Int) (t cron : String)
    (s : QueueState) : Except String Nat × QueueState :=
  if parseOk cron then
    match s.scheduledJobs.find? (fun r => decide (r.type = t)) with
    | some found =>
        (Except.ok found.id,
          { s with scheduledJobs := s.scheduledJobs.map fun r =>
              if r.id = found.id then { r with cronExpression := cron } else r })
    | none =>
        (Except.ok s.nextScheduledJobId,
          { s with
              scheduledJobs := s.scheduledJobs ++
                [⟨s.nextScheduledJobId, t, .Idle, cron, 0, now⟩],
              nextScheduledJobId := s.nextScheduledJobId + 1 })
  else
    (Except.error ("invalid cron expression provided: " ++ cron), s)

/-- Operation `queue.markScheduledJobAsIdle(id, nextRun)` via
`updateScheduledJobStatusStmt`: sets `status` and `next_run` of that row. -/
def markScheduledJobAsIdle (id : Nat) (nextRun : Int) (s : QueueState) : QueueState :=
  { s with scheduledJobs := s.scheduledJobs.map fun r =>
      if r.id = id then { r with status := .Idle, nextRun := nextRun } else r }

/-- The optional filter argument of `queue.countJobs`. -/
structure CountOpts where
  type : Option String
  status : Option JobStatus

/-- JavaScript truthiness of `opts?.type`: `undefined` and `""` are falsy. -/
def typeTruthy (o : Option String) : Bool :=
  match o with
  | some t => !t.isEmpty
  | none => false

/-- Operation `queue.countJobs(opts?)`: dispatches on the truthiness of `opts?.type` and
on `opts?.status !== undefined`, exactly as the source does. -/
def countJobs (opts : CountOpts) (s : QueueState) : Nat :=
  if typeTruthy opts.type ∧ opts.status.isSome then
    (s.jobs.filter fun j =>
      decide (some j.status = opts.status) && decide (some j.type = opts.type)).length
  else if opts.status.isSome ∧ ¬ typeTruthy opts.type then
    (s.jobs.filter fun j => decide (some j.status = opts.status)).length
  else if typeTruthy opts.type ∧ opts.status = none then
    (s.jobs.filter fun j => decide (some j.type = opts.type)).length
  else
    s.jobs.length

/-- The consecutive `lastInsertRowid` values produced by a batch of `n`
inserts starting at autoincrement counter `i`. -/
def batchIds : Nat → Nat → List Nat
  | _, 0 => []
  | i, n + 1 => i :: batchIds (i + 1) n

/-- The rows produced by a batch insert of the given serialized payloads,
starting at autoincrement counter `i`. -/
def batchRows (t : String) (now : Int) : Nat → List String → List JobRow
  | _, [] => []
  | i, d :: ds => ⟨i, t, d, .Pending, now, none, none⟩ :: batchRows t now (i + 1) ds

/-- The immutable-after-creation part of a job row: id, type, data, createdAt. -/
def jobKey (j : JobRow) : Nat × String × String × Int :=
  (j.id, j.type, j.data, j.createdAt)

/-- The `failed_at`/`error` discipline a single job row actually maintains:
`Failed` rows carry both, `Pending`/`Processing` rows carry neither, and the
two fields are always set together. -/
def jobFlagsOk (j : JobRow) : Prop :=
  (j.status = .Failed → j.failedAt.isSome ∧ j.error.isSome) ∧
  ((j.status = .Pending ∨ j.status = .Processing) → j.failedAt = none ∧ j.error = none) ∧
  (j.failedAt.isSome ↔ j.error.isSome)

instance (j : JobRow) : Decidable (jobFlagsOk j) := by
  unfold jobFlagsOk; infer_instance

/-- Inductive invariant carried by every reachable database state: the
flag discipline of every row, plus well-formedness of the autoincrement ids. -/
def stateOk (s : QueueState) : Prop :=
  (∀ j ∈ s.jobs, jobFlagsOk j) ∧
  (∀ j ∈ s.jobs, j.id < s.nextJobId) ∧
  (s.jobs.map JobRow.id).Nodup

/-- States reachable from a fresh database by the job-mutating queue
operations.  `add` with any configured serializer stores some serialized
string, so quantifying over the stored string covers every serializer and
payload; likewise for `addMany` (whose stored strings are
`dataList.map serializer`). -/
inductive Reachable : QueueState → Prop where
  | empty : Reachable emptyState
  | addJob {s : QueueState} (t data : String) (now : Int) :
      Reachable s → Reachable (insertJob t data now s).2
  | addManyJobs {s : QueueState} (t : String) (datas : List String) (now : Int) :
      Reachable s → Reachable (addMany (fun d => d) now t datas s).2
  | claim {s : QueueState} (t : String) :
      Reachable s → Reachable (getAndMarkJobAsProcessing t s).2
  | done {s : QueueState} (id : Nat) :
      Reachable s → Reachable (markJobAsDone id s)
  | failed {s : QueueState} (now : Int) (id : Nat) (e : String) :
      Reachable s → Reachable (markJobAsFailed now id e s)
  | requeue {s : QueueState} (now timeout : Int) :
      Reachable s → Reachable (requeueTimedOutJobs now timeout s)
  | removeDone {s : QueueState} (now olderThan : Int) :
      Reachable s → Reachable (removeDoneJobs now olderThan s)
  | removeFailed {s : QueueState} (now olderThan : Int) :
      Reachable s → Reachable (removeFailedJobs now olderThan s)

/-- Jobs A (id 1), B (id 2), C (id 3) of type `t`, enqueued in that order
with strictly increasing `createdAt` 1, 2, 3. -/
def sFIFO : QueueState :=
  (insertJob "t" "c" 3 (insertJob "t" "b" 2 (insertJob "t" "a" 1 emptyState).2).2).2

/-- First claim against `sFIFO`. -/
def claimFIFO1 : Option JobRow × QueueState := getAndMarkJobAsProcessing "t" sFIFO

/-- Second successive claim. -/
def claimFIFO2 : Option JobRow × QueueState := getAndMarkJobAsProcessing "t" claimFIFO1.2

/-- Third successive claim. -/
def claimFIFO3 : Option JobRow × QueueState := getAndMarkJobAsProcessing "t" claimFIFO2.2

/-- A store holding exactly one job of type `t` (id 1, createdAt 1), already
claimed, hence `Processing`; no `Pending` job of type `t` exists. -/
def sOneProcessing : QueueState :=
  (getAndMarkJobAsProcessing "t" (insertJob "t" "a" 1 emptyState).2).2

/-- Concrete store for the retention boundary: with `now = 100`,
`olderThan = 10`, job 1 sits exactly 1ms below the threshold, job 2 exactly
1ms above it, job 3 is non-terminal, job 4 is an old failed job. -/
def sRetention : QueueState :=
  { jobs := [⟨1, "t", "a", .Done, 89, none, none⟩,
             ⟨2, "t", "b", .Done, 91, none, none⟩,
             ⟨3, "t", "c", .Pending, 0, none, none⟩,
             ⟨4, "t", "d", .Failed, 0, some 80, some "e"⟩],
    scheduledJobs := [], nextJobId := 5, nextScheduledJobId := 1 }

/-- A trivially accepting stand-in for the cron parser, used in concrete
schedule scenarios. -/
def parseOkAll : String → Bool := fun _ => true

/-- Add a job, claim it, fail it at time 5, then mark it done: the resulting
`Done` row still carries `failed_at` and `error`. -/
def sFlagLeak : QueueState :=
  markJobAsDone 1
    (markJobAsFailed 5 1 "boom"
      (getAndMarkJobAsProcessing "t" (insertJob "t" "d" 0 emptyState).2).2)

/-- Jobs K (id 1, createdAt 1) and J (id 2, createdAt 5) of type `t`, both
claimed and hence `Processing` — two workers crashed holding them. -/
def sTwoProcessing : QueueState :=
  (getAndMarkJobAsProcessing "t" (getAndMarkJobAsProcessing "t"
    (insertJob "t" "b" 5 (insertJob "t" "a" 1 emptyState).2).2).2).2

/-- The store after `requeueTimedOutJobs` with `now = 100`, `timeout = 10`:
both stuck jobs are past the threshold 90 and go back to `Pending`. -/
def sRequeued : QueueState := requeueTimedOutJobs 100 10 sTwoProcessing

/-- First claim after the requeue. -/
def claimR1 : Option JobRow × QueueState := getAndMarkJobAsProcessing "t" sRequeued

/-- Second claim after the requeue. -/
def claimR2 : Option JobRow × QueueState := getAndMarkJobAsProcessing "t" claimR1.2

end Plainjob
namespace Plainjob

theorem jobLt_irrefl (a : JobRow) : ¬ jobLt a a := by
  unfold jobLt; omega

theorem jobLt_asymm {a b : JobRow} (h : jobLt a b) : ¬ jobLt b a := by
  unfold jobLt at h ⊢; omega

theorem selectOldest_mem : ∀ {l : List JobRow} {j : JobRow},
    selectOldest l = some j → j ∈ l := by
  intro l
  induction l with
  | nil => intro j h; simp [selectOldest] at h
  | cons a rest ih =>
    intro j h
    rw [selectOldest] at h
    cases hr : selectOldest rest with
    | none => rw [hr] at h; cases h; exact List.mem_cons_self _ _
    | some k =>
      rw [hr] at h
      dsimp only at h
      by_cases hk : jobLt k a
      · rw [if_pos hk] at h; cases h; exact List.mem_cons_of_mem _ (ih hr)
      · rw [if_neg hk] at h; cases h; exact List.mem_cons_self _ _

theorem selectOldest_eq_none {l : List JobRow} : selectOldest l = none ↔ l = [] := by
  cases l with
  | nil => simp [selectOldest]
  | cons a rest =>
    rw [selectOldest]
    cases hr : selectOldest rest with
    | none => simp
    | some k => by_cases h : jobLt k a <;> simp [h]

theorem selectOldest_min : ∀ {l : List JobRow} {j : JobRow},
    j ∈ l → (∀ k ∈ l, k = j ∨ jobLt j k) → selectOldest l = some j := by
  intro l
  induction l with
  | nil => intro j h; simp at h
  | cons a rest ih =>
    intro j hj hmin
    rw [selectOldest]
    by_cases hja : j = a
    · subst hja
      cases hr : selectOldest rest with
      | none => rfl
      | some k =>
        have hk : k ∈ rest := selectOldest_mem hr
        dsimp only
        rcases hmin k (List.mem_cons_of_mem _ hk) with rfl | hlt
        · rw [if_neg (jobLt_irrefl k)]
        · rw [if_neg (jobLt_asymm hlt)]
    · have hjr : j ∈ rest := by
        rcases List.mem_cons.mp hj with h | h
        · exact absurd h hja
        · exact h
      have hr : selectOldest rest = some j :=
        ih hjr (fun k hk => hmin k (List.mem_cons_of_mem _ hk))
      rw [hr]
      dsimp only
      have hja' : jobLt j a := by
        rcases hmin a (List.mem_cons_self _ _) with h | h
        · exact absurd h.symm hja
        · exact h
      rw [if_pos hja']

theorem map_proj_of_preserve {α : Type} {φ : JobRow → α} :
    ∀ {l : List JobRow} {g : JobRow → JobRow},
      (∀ j ∈ l, φ (g j) = φ j) → (l.map g).map φ = l.map φ := by
  intro l
  induction l with
  | nil => intro g _; rfl
  | cons a rest ih =>
    intro g hg
    simp only [List.map_cons, List.cons.injEq]
    exact ⟨hg a (List.mem_cons_self _ _),
      ih (fun j hj => hg j (List.mem_cons_of_mem _ hj))⟩

theorem eq_of_id_eq {l : List JobRow} (hnd : (l.map JobRow.id).Nodup)
    {a b : JobRow} (ha : a ∈ l) (hb : b ∈ l) (hid : a.id = b.id) : a = b :=
  List.inj_on_of_nodup_map hnd ha hb hid

end Plainjob
namespace Plainjob

theorem batchIds_length (i n : Nat) : (batchIds i n).length = n := by
  induction n generalizing i with
  | zero => rfl
  | succ n ih => simp [batchIds, ih]

theorem batchRows_length (t : String) (now : Int) (i : Nat) (datas : List String) :
    (batchRows t now i datas).length = datas.length := by
  induction datas generalizing i with
  | nil => rfl
  | cons d ds ih => simp [batchRows, ih]

theorem batchIds_get? (i n k : Nat) :
    (batchIds i n).get? k = if k < n then some (i + k) else none := by
  induction n generalizing i k with
  | zero => simp [batchIds]
  | succ n ih =>
    cases k with
    | zero => simp [batchIds]
    | succ k =>
      rw [batchIds]
      simp only [List.get?_cons_succ, ih]
      by_cases h : k < n
      · rw [if_pos h, if_pos (by omega)]
        congr 1
        omega
      · rw [if_neg h, if_neg (by omega)]

theorem batchRows_get? (t : String) (now : Int) (i : Nat) (datas : List String) (k : Nat) :
    (batchRows t now i datas).get? k =
      (datas.get? k).map (fun d => ⟨i + k, t, d, .Pending, now, none, none⟩) := by
  induction datas generalizing i k with
  | nil => simp [batchRows]
  | cons d ds ih =>
    cases k with
    | zero => simp [batchRows]
    | succ k =>
      rw [batchRows]
      simp only [List.get?_cons_succ, ih]
      cases ds.get? k with
      | none => rfl
      | some d =>
        simp only [Option.map_some']
        congr 2
        omega

theorem batchRows_mem {t : String} {now : Int} :
    ∀ {i : Nat} {datas : List String} {j : JobRow}, j ∈ batchRows t now i datas →
      j.type = t ∧ j.status = .Pending ∧ j.createdAt = now ∧
      j.failedAt = none ∧ j.error = none ∧ i ≤ j.id ∧ j.id < i + datas.length := by
  intro i datas
  induction datas generalizing i with
  | nil => intro j h; simp [batchRows] at h
  | cons d ds ih =>
    intro j h
    rw [batchRows] at h
    rcases List.mem_cons.mp h with rfl | h
    · refine ⟨rfl, rfl, rfl, rfl, rfl, Nat.le_refl _, by simp only [List.length_cons]; omega⟩
    · obtain ⟨h1, h2, h3, h4, h5, h6, h7⟩ := ih h
      exact ⟨h1, h2, h3, h4, h5, by omega, by simp only [List.length_cons]; omega⟩

theorem addMany_fold (t : String) (now : Int) :
    ∀ (datas : List String) (acc : List Nat) (s : QueueState),
      (datas.foldl (fun acc data =>
          let r := insertJob t data now acc.2
          (acc.1 ++ [r.1], r.2)) (acc, s)) =
      (acc ++ batchIds s.nextJobId datas.length,
       { s with jobs := s.jobs ++ batchRows t now s.nextJobId datas,
                nextJobId := s.nextJobId + datas.length }) := by
  intro datas
  induction datas with
  | nil =>
    intro acc s
    simp [batchIds, batchRows]
  | cons d ds ih =>
    intro acc s
    obtain ⟨jobs, sched, nid, nsid⟩ := s
    rw [List.foldl_cons]
    rw [ih]
    simp only [insertJob, List.length_cons, batchIds, batchRows, Prod.mk.injEq,
      QueueState.mk.injEq]
    refine ⟨by simp, by simp, trivial, by omega, trivial⟩

theorem addMany_eq {D : Type} (serializer : D → String) (now : Int) (t : String)
    (ds : List D) (s : QueueState) :
    addMany serializer now t ds s =
      (batchIds s.nextJobId ds.length,
       { s with jobs := s.jobs ++ batchRows t now s.nextJobId (ds.map serializer),
                nextJobId := s.nextJobId + ds.length }) := by
  unfold addMany
  rw [addMany_fold]
  simp

end Plainjob
namespace Plainjob

theorem stateOk_empty : stateOk emptyState := by
  refine ⟨?_, ?_, ?_⟩ <;> simp [emptyState]

theorem stateOk_insertJob (t d : String) (now : Int) {s : QueueState}
    (h : stateOk s) : stateOk (insertJob t d now s).2 := by
  obtain ⟨hA, hB, hC⟩ := h
  refine ⟨?_, ?_, ?_⟩
  · intro j hj
    rcases List.mem_append.mp hj with hj | hj
    · exact hA j hj
    · rcases List.mem_singleton.mp hj with rfl
      exact ⟨by simp [jobFlagsOk], by simp [jobFlagsOk], by simp [jobFlagsOk]⟩
  · intro j hj
    rcases List.mem_append.mp hj with hj | hj
    · have := hB j hj
      simp only [insertJob]
      omega
    · rcases List.mem_singleton.mp hj with rfl
      simp [insertJob]
  · simp only [insertJob, List.map_append, List.map_cons, List.map_nil]
    rw [List.nodup_append]
    refine ⟨hC, List.nodup_singleton _, ?_⟩
    intro a ha hb
    rcases List.mem_singleton.mp hb with rfl
    rcases List.mem_map.mp ha with ⟨j, hj, hid⟩
    have := hB j hj
    omega

theorem stateOk_addManyAux (t : String) (now : Int) :
    ∀ (datas : List String) (acc : List Nat) {s : QueueState}, stateOk s →
      stateOk ((datas.foldl (fun acc data =>
        let r := insertJob t data now acc.2
        (acc.1 ++ [r.1], r.2)) (acc, s)).2) := by
  intro datas
  induction datas with
  | nil => intro acc s h; exact h
  | cons d ds ih =>
    intro acc s h
    rw [List.foldl_cons]
    exact ih _ (stateOk_insertJob t d now h)

theorem stateOk_addMany (t : String) (datas : List String) (now : Int)
    {s : QueueState} (h : stateOk s) :
    stateOk (addMany (fun d => d) now t datas s).2 := by
  unfold addMany
  rw [List.map_id']
  exact stateOk_addManyAux t now datas [] h

end Plainjob
namespace Plainjob

theorem stateOk_mapFlip {s : QueueState} (h : stateOk s) (g : JobRow → JobRow)
    (hid : ∀ j, (g j).id = j.id)
    (hflags : ∀ j ∈ s.jobs, jobFlagsOk j → jobFlagsOk (g j)) :
    stateOk { s with jobs := s.jobs.map g } := by
  obtain ⟨hA, hB, hC⟩ := h
  refine ⟨?_, ?_, ?_⟩
  · intro k hk
    rcases List.mem_map.mp hk with ⟨j, hj, rfl⟩
    exact hflags j hj (hA j hj)
  · intro k hk
    rcases List.mem_map.mp hk with ⟨j, hj, rfl⟩
    rw [hid]
    exact hB j hj
  · rw [map_proj_of_preserve (fun j _ => hid j)]
    exact hC

theorem stateOk_markJobAsDone (id : Nat) {s : QueueState} (h : stateOk s) :
    stateOk (markJobAsDone id s) := by
  refine stateOk_mapFlip h _ ?_ ?_
  · intro j; unfold doneFlip; split <;> rfl
  · intro j _ hj
    obtain ⟨h1, h2, h3⟩ := hj
    unfold doneFlip
    split
    · exact ⟨by simp, by simp, h3⟩
    · exact ⟨h1, h2, h3⟩

theorem stateOk_markJobAsFailed (now : Int) (id : Nat) (e : String)
    {s : QueueState} (h : stateOk s) :
    stateOk (markJobAsFailed now id e s) := by
  refine stateOk_mapFlip h _ ?_ ?_
  · intro j; unfold failFlip; split <;> rfl
  · intro j _ hj
    obtain ⟨h1, h2, h3⟩ := hj
    unfold failFlip
    split
    · exact ⟨by simp, by simp, by simp⟩
    · exact ⟨h1, h2, h3⟩

theorem stateOk_requeueTimedOutJobs (now timeout : Int) {s : QueueState}
    (h : stateOk s) : stateOk (requeueTimedOutJobs now timeout s) := by
  refine stateOk_mapFlip h _ ?_ ?_
  · intro j; unfold requeueFlip; split <;> rfl
  · intro j _ hj
    obtain ⟨h1, h2, h3⟩ := hj
    unfold requeueFlip
    split
    · rename_i hc
      have := h2 (Or.inr hc.1)
      exact ⟨by simp, fun _ => this, h3⟩
    · exact ⟨h1, h2, h3⟩

theorem stateOk_filter (p : JobRow → Bool) {s : QueueState} (h : stateOk s) :
    stateOk { s with jobs := s.jobs.filter p } := by
  obtain ⟨hA, hB, hC⟩ := h
  refine ⟨?_, ?_, ?_⟩
  · intro j hj; exact hA j (List.mem_of_mem_filter hj)
  · intro j hj; exact hB j (List.mem_of_mem_filter hj)
  · exact ((List.filter_sublist _).map _).nodup hC

theorem stateOk_removeDoneJobs (now olderThan : Int) {s : QueueState}
    (h : stateOk s) : stateOk (removeDoneJobs now olderThan s) :=
  stateOk_filter _ h

theorem stateOk_removeFailedJobs (now olderThan : Int) {s : QueueState}
    (h : stateOk s) : stateOk (removeFailedJobs now olderThan s) :=
  stateOk_filter _ h

theorem stateOk_claimJob (t : String) {s : QueueState} (h : stateOk s) :
    stateOk (getAndMarkJobAsProcessing t s).2 := by
  have h2 : (getAndMarkJobAsProcessing t s).2 = markOldestPending t s := rfl
  rw [h2]
  unfold markOldestPending
  cases hp : selectOldest (s.jobs.filter fun j => decide (j.status = .Pending ∧ j.type = t)) with
  | none => exact h
  | some p =>
    have hpmem := selectOldest_mem hp
    have hpj : p ∈ s.jobs := List.mem_of_mem_filter hpmem
    have hpst : p.status = .Pending := by
      have := List.of_mem_filter hpmem
      simp only [decide_eq_true_eq] at this
      exact this.1
    refine stateOk_mapFlip h _ ?_ ?_
    · intro j; unfold claimFlip; split <;> rfl
    · intro j hj hfj
      obtain ⟨h1, h2, h3⟩ := hfj
      unfold claimFlip
      split
      · rename_i hid
        have hjp : j = p := eq_of_id_eq h.2.2 hj hpj hid
        subst hjp
        have := h2 (Or.inl hpst)
        exact ⟨by simp, fun _ => this, h3⟩
      · exact ⟨h1, h2, h3⟩

theorem reachable_stateOk {s : QueueState} (h : Reachable s) : stateOk s := by
  induction h with
  | empty => exact stateOk_empty
  | addJob t data now _ ih => exact stateOk_insertJob t data now ih
  | addManyJobs t datas now _ ih => exact stateOk_addMany t datas now ih
  | claim t _ ih => exact stateOk_claimJob t ih
  | done id _ ih => exact stateOk_markJobAsDone id ih
  | failed now id e _ ih => exact stateOk_markJobAsFailed now id e ih
  | requeue now timeout _ ih => exact stateOk_requeueTimedOutJobs now timeout ih
  | removeDone now olderThan _ ih => exact stateOk_removeDoneJobs now olderThan ih
  | removeFailed now olderThan _ ih => exact stateOk_removeFailedJobs now olderThan ih

end Plainjob
namespace Plainjob

theorem requeueFlip_id (now timeout : Int) (j : JobRow) :
    (requeueFlip now timeout j).id = j.id := by
  unfold requeueFlip; split <;> rfl

theorem requeueFlip_type (now timeout : Int) (j : JobRow) :
    (requeueFlip now timeout j).type = j.type := by
  unfold requeueFlip; split <;> rfl

theorem requeueFlip_createdAt (now timeout : Int) (j : JobRow) :
    (requeueFlip now timeout j).createdAt = j.createdAt := by
  unfold requeueFlip; split <;> rfl

theorem reclaim_after_requeue (now timeout : Int) (s : QueueState) (j : JobRow)
    (hnd : (s.jobs.map JobRow.id).Nodup)
    (hj : j ∈ s.jobs) (hstat : j.status = .Processing)
    (hold : j.createdAt < now - timeout)
    (hmin : ∀ k ∈ s.jobs, k.type = j.type → k.id ≠ j.id →
        (k.status = .Pending ∨ (k.status = .Processing ∧ k.createdAt < now - timeout)) →
        jobLt j k) :
    (getAndMarkJobAsProcessing j.type (requeueTimedOutJobs now timeout s)).1 =
      some { j with status := .Processing } := by
  have hjobs' : (requeueTimedOutJobs now timeout s).jobs =
      s.jobs.map (requeueFlip now timeout) := rfl
  have hflipj : requeueFlip now timeout j = { j with status := .Pending } := by
    unfold requeueFlip; rw [if_pos ⟨hstat, hold⟩]
  have hj' : ({ j with status := .Pending } : JobRow) ∈ (requeueTimedOutJobs now timeout s).jobs := by
    rw [hjobs', ← hflipj]
    exact List.mem_map_of_mem _ hj
  have hnd' : ((requeueTimedOutJobs now timeout s).jobs.map JobRow.id).Nodup := by
    rw [hjobs', map_proj_of_preserve (fun k _ => requeueFlip_id now timeout k)]
    exact hnd
  have hsel : selectOldest ((requeueTimedOutJobs now timeout s).jobs.filter
      fun k => decide (k.status = .Pending ∧ k.type = j.type)) =
      some { j with status := .Pending } := by
    apply selectOldest_min
    · exact List.mem_filter.mpr ⟨hj', by simp⟩
    · intro k hk
      have hkmem := List.mem_of_mem_filter hk
      have hkprop := List.of_mem_filter hk
      simp only [decide_eq_true_eq] at hkprop
      obtain ⟨hkst, hkty⟩ := hkprop
      rw [hjobs'] at hkmem
      rcases List.mem_map.mp hkmem with ⟨r, hr, rfl⟩
      by_cases hidr : r.id = j.id
      · left
        have hrj : r = j := eq_of_id_eq hnd hr hj hidr
        rw [hrj, hflipj]
      · right
        have hrty : r.type = j.type := by rw [← requeueFlip_type now timeout r]; exact hkty
        have hrst : r.status = .Pending ∨ (r.status = .Processing ∧ r.createdAt < now - timeout) := by
          by_cases hc : r.status = .Processing ∧ r.createdAt < now - timeout
          · exact Or.inr hc
          · left
            unfold requeueFlip at hkst
            rw [if_neg hc] at hkst
            exact hkst
        have hlt : jobLt j r := hmin r hr hrty hidr hrst
        unfold jobLt at hlt ⊢
        rw [requeueFlip_createdAt, requeueFlip_id]
        exact hlt
  have hfst : (getAndMarkJobAsProcessing j.type (requeueTimedOutJobs now timeout s)).1 =
      getUpdatedJob j.type (markOldestPending j.type (requeueTimedOutJobs now timeout s)) := rfl
  have hm : markOldestPending j.type (requeueTimedOutJobs now timeout s) =
      { requeueTimedOutJobs now timeout s with
          jobs := (requeueTimedOutJobs now timeout s).jobs.map (claimFlip j.id) } := by
    unfold markOldestPending
    rw [hsel]
  rw [hfst, hm]
  unfold getUpdatedJob
  apply selectOldest_min
  · apply List.mem_filter.mpr
    constructor
    · have hcf : claimFlip j.id ({ j with status := .Pending } : JobRow) =
          { j with status := .Processing } := by
        unfold claimFlip; rw [if_pos rfl]
      show ({ j with status := .Processing } : JobRow) ∈
        (requeueTimedOutJobs now timeout s).jobs.map (claimFlip j.id)
      rw [← hcf]
      exact List.mem_map_of_mem _ hj'
    · simp
  · intro k hk
    have hkmem := List.mem_of_mem_filter hk
    have hkprop := List.of_mem_filter hk
    simp only [decide_eq_true_eq] at hkprop
    obtain ⟨hkst, hkty⟩ := hkprop
    rcases List.mem_map.mp hkmem with ⟨m, hm', rfl⟩
    by_cases hidm : m.id = j.id
    · left
      have hmj : m = { j with status := .Pending } := eq_of_id_eq hnd' hm' hj' hidm
      rw [hmj]
      unfold claimFlip
      rw [if_pos rfl]
    · right
      have hkm : claimFlip j.id m = m := by unfold claimFlip; rw [if_neg hidm]
      rw [hkm] at hkst hkty ⊢
      rw [hjobs'] at hm'
      rcases List.mem_map.mp hm' with ⟨r, hr, rfl⟩
      have hcond : ¬(r.status = .Processing ∧ r.createdAt < now - timeout) := by
        intro hc
        unfold requeueFlip at hkst
        rw [if_pos hc] at hkst
        simp at hkst
      have hkeq : requeueFlip now timeout r = r := by unfold requeueFlip; rw [if_neg hcond]
      rw [hkeq] at hkst ⊢
      have hge : ¬ r.createdAt < now - timeout := fun hlt => hcond ⟨hkst, hlt⟩
      unfold jobLt
      left
      show j.createdAt < r.createdAt
      omega

end Plainjob
namespace Plainjob

/-- C1: FAILS on the code (evaluation at the failing input).  With jobs A, B, C
of type `t` enqueued in that order with strictly increasing `createdAt` and no
other mutating operation, three successive `getAndMarkJobAsProcessing("t")`
calls all return job A (id 1): the post-update re-read selects the oldest
`Processing` row of the type, which remains A, so the same id is returned by
all three calls even though A, B, C do all get marked `Processing`. -/
theorem getAndMarkFifoBug :
    claimFIFO1.1.map JobRow.id = some 1 ∧
    claimFIFO2.1.map JobRow.id = some 1 ∧
    claimFIFO3.1.map JobRow.id = some 1 ∧
    claimFIFO3.2.jobs.map JobRow.status = [.Processing, .Processing, .Processing] := by
  decide

/-- C2: FAILS on the code (evaluation at the failing input).  On a store whose
only job of type `t` is `Processing` (no `Pending` job of type `t` exists),
`getAndMarkJobAsProcessing("t")` does leave every row unchanged, but returns
that old `Processing` row instead of none. -/
theorem getAndMarkNoPendingBug :
    (sOneProcessing.jobs.filter fun j => decide (j.status = .Pending ∧ j.type = "t")) = [] ∧
    sOneProcessing.jobs.map JobRow.status = [.Processing] ∧
    (getAndMarkJobAsProcessing "t" sOneProcessing).1.map JobRow.id = some 1 ∧
    (getAndMarkJobAsProcessing "t" sOneProcessing).2 = sOneProcessing := by
  decide

/-- C3 counterexample: the state reached from an empty store by
add, getAndMarkJobAsProcessing, markJobAsFailed, markJobAsDone contains a
`Done` row whose `failed_at` and `error` are still set, refuting
"both are unset for every other status". -/
theorem flagInvariantCounterexample :
    Reachable sFlagLeak ∧
    sFlagLeak.jobs = [⟨1, "t", "d", .Done, 0, some 5, some "boom"⟩] := by
  constructor
  · exact Reachable.done 1 (Reachable.failed 5 1 "boom"
      (Reachable.claim "t" (Reachable.addJob "t" "d" 0 Reachable.empty)))
  · decide

/-- C3 (amended): in every state reachable from an empty store by the listed
queue operations, every job row satisfies: `status = Failed` implies `failedAt`
and `error` are both set; `status = Pending` or `Processing` implies both are
unset; and `failedAt` is set iff `error` is set.  (A `Done` row may retain
both fields, since `markJobAsDone` on a `Failed` job clears neither.) -/
theorem flagInvariant {s : QueueState} (h : Reachable s) :
    ∀ j ∈ s.jobs,
      (j.status = .Failed → j.failedAt.isSome ∧ j.error.isSome) ∧
      ((j.status = .Pending ∨ j.status = .Processing) →
        j.failedAt = none ∧ j.error = none) ∧
      (j.failedAt.isSome ↔ j.error.isSome) :=
  (reachable_stateOk h).1

theorem flagInvariant_witness :
    (⟨1, "t", "d", .Failed, 0, some 5, some "boom"⟩ : JobRow).failedAt.isSome ∧
    (⟨1, "t", "d", .Failed, 0, some 5, some "boom"⟩ : JobRow).error.isSome := by
  have h := flagInvariant
    (Reachable.failed 5 1 "boom"
      (Reachable.claim "t" (Reachable.addJob "t" "d" 0 Reachable.empty)))
    ⟨1, "t", "d", .Failed, 0, some 5, some "boom"⟩ (by decide)
  exact h.1 rfl

/-- Conditional complement to the requeue bug below: `requeueTimedOutJobs`
flips to `Pending` exactly the rows with `status = Processing` and
`created_at < now - timeout`, leaving every other row (and every other field)
unchanged; and a requeued job that is the oldest claimable job of its type —
every other job of the type that is claimable after the requeue is strictly
newer by `(createdAt, id)` — is returned again by the next
`getAndMarkJobAsProcessing` of its type, marked `Processing`.  The oldest
requeued job always satisfies this, so it is re-claimed; a younger one is
not (see the theorem below). -/
theorem requeueTimedOutSpec (now timeout : Int) (s : QueueState) (j : JobRow)
    (hnd : (s.jobs.map JobRow.id).Nodup)
    (hj : j ∈ s.jobs) (hstat : j.status = .Processing)
    (hold : j.createdAt < now - timeout)
    (hmin : ∀ k ∈ s.jobs, k.type = j.type → k.id ≠ j.id →
        (k.status = .Pending ∨ (k.status = .Processing ∧ k.createdAt < now - timeout)) →
        jobLt j k) :
    (∀ i, ((requeueTimedOutJobs now timeout s).jobs.get? i).isSome =
        (s.jobs.get? i).isSome) ∧
    (∀ i r r', s.jobs.get? i = some r →
        (requeueTimedOutJobs now timeout s).jobs.get? i = some r' →
        ((r.status = .Processing ∧ r.createdAt < now - timeout) →
          r' = { r with status := .Pending }) ∧
        (¬(r.status = .Processing ∧ r.createdAt < now - timeout) → r' = r)) ∧
    (getAndMarkJobAsProcessing j.type (requeueTimedOutJobs now timeout s)).1 =
      some { j with status := .Processing } := by
  have hjobs : (requeueTimedOutJobs now timeout s).jobs =
      s.jobs.map (requeueFlip now timeout) := rfl
  refine ⟨?_, ?_, ?_⟩
  · intro i
    rw [hjobs, List.get?_map]
    cases s.jobs.get? i <;> rfl
  · intro i r r' hr hr'
    rw [hjobs, List.get?_map, hr] at hr'
    simp only [Option.map_some', Option.some.injEq] at hr'
    subst hr'
    constructor
    · intro hc; unfold requeueFlip; rw [if_pos hc]
    · intro hc; unfold requeueFlip; rw [if_neg hc]
  · exact reclaim_after_requeue now timeout s j hnd hj hstat hold hmin

theorem requeueTimedOutSpec_witness :
    (getAndMarkJobAsProcessing "t" (requeueTimedOutJobs 100 10 sOneProcessing)).1 =
      some ⟨1, "t", "a", .Processing, 1, none, none⟩ := by
  have h := requeueTimedOutSpec 100 10 sOneProcessing
    ⟨1, "t", "a", .Processing, 1, none, none⟩
    (by decide) (by decide) (by decide) (by decide) (by decide)
  exact h.2.2

/-- C4: FAILS on the code (evaluation at the failing input).  The requeue
itself is exact: with `now = 100`, `timeout = 10`, both stuck `Processing`
jobs K (id 1, createdAt 1) and J (id 2, createdAt 5) of type `t` are set back
to `Pending` with every other field intact.  But the requeued job J can never
be returned again: the first claim returns K; the second claim marks J
`Processing` yet still returns K (the re-read picks the oldest `Processing`
row of the type); and the state after the second claim is a fixed point of
`getAndMarkJobAsProcessing "t"`, which keeps returning K there — so no
sequence of further claims of type `t` ever returns J, refuting "a job so
requeued can subsequently be returned again by getAndMarkJobAsProcessing of
its type". -/
theorem requeueReclaimBug :
    sRequeued.jobs = [⟨1, "t", "a", .Pending, 1, none, none⟩,
                      ⟨2, "t", "b", .Pending, 5, none, none⟩] ∧
    claimR1.1.map JobRow.id = some 1 ∧
    claimR2.1.map JobRow.id = some 1 ∧
    claimR2.2.jobs.map JobRow.status = [.Processing, .Processing] ∧
    getAndMarkJobAsProcessing "t" claimR2.2 = (claimR2.1, claimR2.2) := by
  decide

end Plainjob
namespace Plainjob

/-- C5: `removeDoneJobs(olderThan)` keeps exactly the rows that are not
(`Done` with `created_at < now - olderThan`), `removeFailedJobs(olderThan)`
keeps exactly the rows that are not (`Failed` with a set `failed_at` below
`now - olderThan`); a `Done` job 1ms older than the threshold is removed, one
1ms younger is kept, and non-terminal rows survive both sweeps. -/
theorem removeJobsRetention (now olderThan : Int) (s : QueueState) (j : JobRow) :
    (j ∈ (removeDoneJobs now olderThan s).jobs ↔
      j ∈ s.jobs ∧ ¬(j.status = .Done ∧ j.createdAt < now - olderThan)) ∧
    (j ∈ (removeFailedJobs now olderThan s).jobs ↔
      j ∈ s.jobs ∧ ¬(j.status = .Failed ∧ ∃ f, j.failedAt = some f ∧ f < now - olderThan)) ∧
    (j ∈ s.jobs → j.status = .Done → j.createdAt = now - olderThan - 1 →
      j ∉ (removeDoneJobs now olderThan s).jobs) ∧
    (j ∈ s.jobs → j.status = .Done → j.createdAt = now - olderThan + 1 →
      j ∈ (removeDoneJobs now olderThan s).jobs) ∧
    (j ∈ s.jobs → j.status = .Pending ∨ j.status = .Processing →
      j ∈ (removeDoneJobs now olderThan s).jobs ∧
      j ∈ (removeFailedJobs now olderThan s).jobs) := by
  have h1 : j ∈ (removeDoneJobs now olderThan s).jobs ↔
      j ∈ s.jobs ∧ ¬(j.status = .Done ∧ j.createdAt < now - olderThan) := by
    unfold removeDoneJobs
    rw [List.mem_filter]
    simp only [decide_eq_true_eq]
  have h2 : j ∈ (removeFailedJobs now olderThan s).jobs ↔
      j ∈ s.jobs ∧ ¬(j.status = .Failed ∧ ∃ f, j.failedAt = some f ∧ f < now - olderThan) := by
    unfold removeFailedJobs
    rw [List.mem_filter]
    cases hf : j.failedAt with
    | none => simp [hf]
    | some f => simp [hf]; intro _; tauto
  refine ⟨h1, h2, ?_, ?_, ?_⟩
  · intro hmem hst hca
    rw [h1]
    intro hc
    exact hc.2 ⟨hst, by omega⟩
  · intro hmem hst hca
    rw [h1]
    exact ⟨hmem, fun hc => by omega⟩
  · intro hmem hs
    constructor
    · rw [h1]
      refine ⟨hmem, fun hc => ?_⟩
      rcases hs with h | h <;> rw [h] at hc <;> exact absurd hc.1 (by decide)
    · rw [h2]
      refine ⟨hmem, fun hc => ?_⟩
      rcases hs with h | h <;> rw [h] at hc <;> exact absurd hc.1 (by decide)

theorem removeJobsRetention_witness :
    (⟨1, "t", "a", .Done, 89, none, none⟩ : JobRow) ∉
      (removeDoneJobs 100 10 sRetention).jobs ∧
    (⟨2, "t", "b", .Done, 91, none, none⟩ : JobRow) ∈
      (removeDoneJobs 100 10 sRetention).jobs ∧
    (⟨3, "t", "c", .Pending, 0, none, none⟩ : JobRow) ∈
      (removeDoneJobs 100 10 sRetention).jobs ∧
    (⟨3, "t", "c", .Pending, 0, none, none⟩ : JobRow) ∈
      (removeFailedJobs 100 10 sRetention).jobs ∧
    (⟨4, "t", "d", .Failed, 0, some 80, some "e"⟩ : JobRow) ∉
      (removeFailedJobs 100 10 sRetention).jobs := by
  refine ⟨?_, ?_, ?_, ?_, ?_⟩
  · exact (removeJobsRetention 100 10 sRetention _).2.2.1 (by decide) (by decide) (by decide)
  · exact (removeJobsRetention 100 10 sRetention _).2.2.2.1 (by decide) (by decide) (by decide)
  · exact ((removeJobsRetention 100 10 sRetention _).2.2.2.2 (by decide) (Or.inl (by decide))).1
  · exact ((removeJobsRetention 100 10 sRetention _).2.2.2.2 (by decide) (Or.inl (by decide))).2
  · intro hmem
    have h := ((removeJobsRetention 100 10 sRetention
      ⟨4, "t", "d", .Failed, 0, some 80, some "e"⟩).2.1).mp hmem
    exact h.2 ⟨rfl, 80, rfl, by omega⟩

end Plainjob
namespace Plainjob

theorem find?_append_of_none {α : Type} {p : α → Bool} :
    ∀ {l l' : List α}, l.find? p = none → (l ++ l').find? p = l'.find? p := by
  intro l
  induction l with
  | nil => intro l' _; rfl
  | cons a rest ih =>
    intro l' h
    cases hpa : p a with
    | true =>
      rw [List.find?_cons_of_pos _ hpa] at h
      cases h
    | false =>
      rw [List.find?_cons_of_neg _ (by rw [hpa]; exact Bool.false_ne_true)] at h
      rw [List.cons_append, List.find?_cons_of_neg _ (by rw [hpa]; exact Bool.false_ne_true)]
      exact ih h

theorem sched_map_eq_self {l : List ScheduledJobRow} {pid : Nat} {c : String}
    (h : ∀ r ∈ l, r.id ≠ pid) :
    (l.map fun r => if r.id = pid then { r with cronExpression := c } else r) = l := by
  induction l with
  | nil => rfl
  | cons a rest ih =>
    rw [List.map_cons, if_neg (h a (List.mem_cons_self _ _)),
      ih (fun r hr => h r (List.mem_cons_of_mem _ hr))]

/-- C6: on a store with no scheduled job of type `t`, `schedule(t, c1)` inserts
exactly one new `Idle` row with `next_run = 0` and returns its id; a subsequent
`schedule(t, c2)` creates no new row, rewrites that row's `cron_expression` to
`c2` in place, and returns the same id, so exactly one scheduled job of type
`t` exists afterwards. -/
theorem scheduleUpsert (parseOk : String → Bool) (now1 now2 : Int) (t c1 c2 : String)
    (s : QueueState)
    (h1 : parseOk c1 = true) (h2 : parseOk c2 = true)
    (hnone : ∀ r ∈ s.scheduledJobs, r.type ≠ t)
    (hfresh : ∀ r ∈ s.scheduledJobs, r.id < s.nextScheduledJobId) :
    schedule parseOk now1 t c1 s =
      (Except.ok s.nextScheduledJobId,
        { s with
            scheduledJobs := s.scheduledJobs ++
              [⟨s.nextScheduledJobId, t, .Idle, c1, 0, now1⟩],
            nextScheduledJobId := s.nextScheduledJobId + 1 }) ∧
    schedule parseOk now2 t c2 (schedule parseOk now1 t c1 s).2 =
      (Except.ok s.nextScheduledJobId,
        { s with
            scheduledJobs := s.scheduledJobs ++
              [⟨s.nextScheduledJobId, t, .Idle, c2, 0, now1⟩],
            nextScheduledJobId := s.nextScheduledJobId + 1 }) ∧
    ((schedule parseOk now2 t c2 (schedule parseOk now1 t c1 s).2).2.scheduledJobs.filter
        (fun r => decide (r.type = t))).length = 1 := by
  have hfind : s.scheduledJobs.find? (fun r => decide (r.type = t)) = none := by
    rw [List.find?_eq_none]
    intro r hr
    simp [hnone r hr]
  have hc1 : schedule parseOk now1 t c1 s =
      (Except.ok s.nextScheduledJobId,
        { s with
            scheduledJobs := s.scheduledJobs ++
              [⟨s.nextScheduledJobId, t, .Idle, c1, 0, now1⟩],
            nextScheduledJobId := s.nextScheduledJobId + 1 }) := by
    unfold schedule
    rw [if_pos h1, hfind]
  have hfind2 : ((s.scheduledJobs ++
      [(⟨s.nextScheduledJobId, t, .Idle, c1, 0, now1⟩ : ScheduledJobRow)]).find?
        (fun r => decide (r.type = t))) =
      some ⟨s.nextScheduledJobId, t, .Idle, c1, 0, now1⟩ := by
    rw [find?_append_of_none hfind]
    exact List.find?_cons_of_pos _ (by simp)
  have hc2 : schedule parseOk now2 t c2 (schedule parseOk now1 t c1 s).2 =
      (Except.ok s.nextScheduledJobId,
        { s with
            scheduledJobs := s.scheduledJobs ++
              [⟨s.nextScheduledJobId, t, .Idle, c2, 0, now1⟩],
            nextScheduledJobId := s.nextScheduledJobId + 1 }) := by
    rw [hc1]
    unfold schedule
    rw [if_pos h2]
    dsimp only
    rw [hfind2]
    dsimp only
    rw [List.map_append]
    rw [sched_map_eq_self (fun r hr => by have := hfresh r hr; omega)]
    rw [List.map_cons, List.map_nil, if_pos rfl]
  refine ⟨hc1, hc2, ?_⟩
  rw [hc2]
  dsimp only
  rw [List.filter_append]
  have hnil : (s.scheduledJobs.filter fun r => decide (r.type = t)) = [] := by
    rw [List.filter_eq_nil]
    intro r hr
    simp [hnone r hr]
  rw [hnil]
  simp

theorem scheduleUpsert_witness :
    schedule parseOkAll 7 "x" "cronA" emptyState =
      (Except.ok 1,
        { emptyState with
            scheduledJobs := [⟨1, "x", .Idle, "cronA", 0, 7⟩],
            nextScheduledJobId := 2 }) ∧
    schedule parseOkAll 9 "x" "cronB" (schedule parseOkAll 7 "x" "cronA" emptyState).2 =
      (Except.ok 1,
        { emptyState with
            scheduledJobs := [⟨1, "x", .Idle, "cronB", 0, 7⟩],
            nextScheduledJobId := 2 }) := by
  have h := scheduleUpsert parseOkAll 7 9 "x" "cronA" "cronB" emptyState
    rfl rfl (by simp [emptyState]) (by simp [emptyState])
  exact ⟨h.1, h.2.1⟩

/-- C7: `schedule(type, {cron})` fails, synchronously and with the
invalid-cron error, exactly when the cron expression cannot be parsed, and in
that case the state (both tables and both counters) is completely unchanged. -/
theorem scheduleInvalid (parseOk : String → Bool) (now : Int) (t c : String)
    (s : QueueState) :
    ((∃ msg, (schedule parseOk now t c s).1 = Except.error msg) ↔ parseOk c = false) ∧
    (parseOk c = false →
      schedule parseOk now t c s =
        (Except.error ("invalid cron expression provided: " ++ c), s)) := by
  cases hpc : parseOk c with
  | true =>
    constructor
    · constructor
      · intro hmsg
        obtain ⟨msg, hmsg⟩ := hmsg
        unfold schedule at hmsg
        rw [if_pos hpc] at hmsg
        cases hfind : s.scheduledJobs.find? (fun r => decide (r.type = t)) with
        | none => rw [hfind] at hmsg; cases hmsg
        | some found => rw [hfind] at hmsg; cases hmsg
      · intro h; cases h
    · intro h; cases h
  | false =>
    have herr : schedule parseOk now t c s =
        (Except.error ("invalid cron expression provided: " ++ c), s) := by
      unfold schedule
      rw [if_neg (by rw [hpc]; exact Bool.false_ne_true)]
    constructor
    · constructor
      · intro _; rfl
      · intro _; exact ⟨_, by rw [herr]⟩
    · intro _; exact herr

theorem scheduleInvalid_witness :
    (fun c => !String.isEmpty c : String → Bool) "" = false ∧
    schedule (fun c => !String.isEmpty c) 3 "x" "" sRetention =
      (Except.error ("invalid cron expression provided: " ++ ""), sRetention) := by
  refine ⟨rfl, ?_⟩
  exact (scheduleInvalid (fun c => !String.isEmpty c) 3 "x" "" sRetention).2 rfl

end Plainjob
namespace Plainjob

/-- C8: `addMany(t, ds)` appends exactly one `Pending` job of type `t` per
element of `ds` as one atomic step, each storing the configured serializer
applied to its element with the shared `createdAt = now`, and returns the new
ids in input order: the i-th returned id identifies the job created from the
i-th payload. -/
theorem addManySpec {D : Type} (serializer : D → String) (now : Int) (t : String)
    (ds : List D) (s : QueueState) :
    (addMany serializer now t ds s).1.length = ds.length ∧
    (addMany serializer now t ds s).2.jobs.length = s.jobs.length + ds.length ∧
    (addMany serializer now t ds s).2.scheduledJobs = s.scheduledJobs ∧
    (∀ k ∈ s.jobs, k ∈ (addMany serializer now t ds s).2.jobs) ∧
    (∀ i, i < ds.length →
      (addMany serializer now t ds s).1.get? i = some (s.nextJobId + i) ∧
      ∃ j, (addMany serializer now t ds s).2.jobs.get? (s.jobs.length + i) = some j ∧
        j.id = s.nextJobId + i ∧
        (ds.get? i).map serializer = some j.data ∧
        j.type = t ∧ j.status = .Pending ∧ j.createdAt = now) := by
  rw [addMany_eq]
  refine ⟨batchIds_length _ _, ?_, rfl, ?_, ?_⟩
  · simp [batchRows_length]
  · intro k hk
    exact List.mem_append_left _ hk
  · intro i hi
    refine ⟨by rw [batchIds_get?, if_pos hi], ?_⟩
    rw [List.get?_append_right (by omega)]
    have hidx : s.jobs.length + i - s.jobs.length = i := by omega
    rw [hidx, batchRows_get?, List.get?_map]
    obtain ⟨d, hd⟩ : ∃ d, ds.get? i = some d := ⟨ds.get ⟨i, hi⟩, List.get?_eq_get hi⟩
    rw [hd]
    exact ⟨_, rfl, rfl, rfl, rfl, rfl, rfl⟩

theorem addManySpec_witness :
    (1 : Nat) < 2 ∧
    (addMany (fun n : Nat => toString n) 4 "p" [10, 20] emptyState).1.get? 1 = some 2 := by
  have h := (addManySpec (fun n : Nat => toString n) 4 "p" [10, 20] emptyState).2.2.2.2 1
    (by decide)
  exact ⟨by decide, h.1⟩

/-- C9: no queue operation that keeps a job in the store changes its `id`,
`type`, `data` or `createdAt`: the status-mutating operations preserve the
`jobKey` of every row position, `markScheduledJobAsIdle` and `schedule` leave
the jobs table untouched, and `add`/`addMany` only append new rows after the
unchanged existing ones. -/
theorem frameImmutableFields {D : Type} (serializer : D → String)
    (parseOk : String → Bool) (now timeout nr : Int) (t c e : String) (d : D)
    (ds : List D) (id sid : Nat) (s : QueueState) :
    ((getAndMarkJobAsProcessing t s).2.jobs.map jobKey = s.jobs.map jobKey) ∧
    ((markJobAsDone id s).jobs.map jobKey = s.jobs.map jobKey) ∧
    ((markJobAsFailed now id e s).jobs.map jobKey = s.jobs.map jobKey) ∧
    ((requeueTimedOutJobs now timeout s).jobs.map jobKey = s.jobs.map jobKey) ∧
    ((markScheduledJobAsIdle sid nr s).jobs = s.jobs) ∧
    ((add serializer now t d s).2.jobs.map jobKey =
      s.jobs.map jobKey ++ [(s.nextJobId, t, serializer d, now)]) ∧
    ((addMany serializer now t ds s).2.jobs.map jobKey =
      s.jobs.map jobKey ++ (batchRows t now s.nextJobId (ds.map serializer)).map jobKey) ∧
    ((schedule parseOk now t c s).2.jobs = s.jobs) := by
  refine ⟨?_, ?_, ?_, ?_, rfl, ?_, ?_, ?_⟩
  · have h : (getAndMarkJobAsProcessing t s).2 = markOldestPending t s := rfl
    rw [h]
    unfold markOldestPending
    cases hp : selectOldest (s.jobs.filter fun j => decide (j.status = .Pending ∧ j.type = t)) with
    | none => rfl
    | some p =>
      exact map_proj_of_preserve (fun j _ => by unfold claimFlip jobKey; split <;> rfl)
  · exact map_proj_of_preserve (fun j _ => by unfold doneFlip jobKey; split <;> rfl)
  · exact map_proj_of_preserve (fun j _ => by unfold failFlip jobKey; split <;> rfl)
  · exact map_proj_of_preserve (fun j _ => by unfold requeueFlip jobKey; split <;> rfl)
  · simp [add, insertJob, jobKey]
  · rw [addMany_eq]
    simp
  · unfold schedule
    split
    · split <;> rfl
    · rfl

/-- C10: because the filter dispatch of `countJobs` tests JavaScript
truthiness of `opts.type`, the empty-string type filter is ignored:
`countJobs({type: ""})` counts every job, and
`countJobs({type: "", status: s})` counts the jobs with status `s` of every
type, identically to the calls without a type filter. -/
theorem countJobsEmptyTypeFilter (s : QueueState) (st : JobStatus) :
    countJobs ⟨some "", none⟩ s = countJobs ⟨none, none⟩ s ∧
    countJobs ⟨some "", none⟩ s = s.jobs.length ∧
    countJobs ⟨some "", some st⟩ s = countJobs ⟨none, some st⟩ s ∧
    countJobs ⟨some "", some st⟩ s =
      (s.jobs.filter fun j => decide (j.status = st)).length := by
  refine ⟨rfl, rfl, rfl, ?_⟩
  show (s.jobs.filter fun j => decide (some j.status = some st)).length = _
  congr 1
  apply List.filter_congr
  intro j _
  simp

end Plainjob
